import Mathlib

/-!
Verification of the cache-key construction engine and invalidation
orchestration of `go-repository-cache`, via a shallow embedding of
`cache/key_serializer.go`, `cache/service.go` and
`repositorycache/decorator.go` into Lean.

Go values that can appear as cache-key arguments are modelled by the
inductive type `GoValue` (covering the reflection kinds the serializer
dispatches on: nil interfaces, booleans, integers, strings, function and
channel identities, pointers, slices, arrays, maps and structs).  Machine
integers are modelled as `Int`: key serialization only renders them in
decimal and never performs arithmetic, so overflow is irrelevant here.
Maps are modelled as association lists in iteration order; a Go map never
holds the same key twice, which the theorems reflect through explicit
no-duplicate hypotheses.  `fmt` renderings (`%v`, `%d`, `%p`) are embedded
by executable decimal/hexadecimal printers.
-/

/-- Decimal digit characters of `n`, most significant first, accumulated
onto `acc`.  The fuel argument makes the recursion structural; `natRepr`
always passes enough fuel. -/
def natDigitsCore : Nat → Nat → List Char → List Char
  | 0, _, acc => acc
  | fuel + 1, n, acc =>
    let d := Char.ofNat (48 + n % 10)
    if n < 10 then d :: acc else natDigitsCore fuel (n / 10) (d :: acc)

/-- Decimal rendering of a natural number, as Go `fmt` prints it. -/
def natRepr (n : Nat) : String := String.mk (natDigitsCore (n + 1) n [])

/-- Decimal rendering of an integer, as Go `fmt` prints a signed integer. -/
def intRepr (i : Int) : String :=
  if i < 0 then "-" ++ natRepr i.natAbs else natRepr i.natAbs

/-- Hexadecimal digit characters of `n`, most significant first (lower-case
letters, as Go `%p`/`%x` print). -/
def hexDigitsCore : Nat → Nat → List Char → List Char
  | 0, _, acc => acc
  | fuel + 1, n, acc =>
    let r := n % 16
    let d := if r < 10 then Char.ofNat (48 + r) else Char.ofNat (87 + r)
    if n < 16 then d :: acc else hexDigitsCore fuel (n / 16) (d :: acc)

/-- Hexadecimal rendering of a natural number. -/
def hexRepr (n : Nat) : String := String.mk (hexDigitsCore (n + 1) n [])

/-- Model of Go `strings.Join`: concatenate the strings of `l`, writing
`sep` between consecutive elements. -/
def joinSep (sep : String) : List String → String
  | [] => ""
  | [x] => x
  | x :: y :: t => x ++ sep ++ joinSep sep (y :: t)

/-- Model of Go `strings.HasPrefix` (the prefix semantics a backend uses
for `DeleteByPrefix`): byte-wise prefix test. -/
def strHasPrefix (p s : String) : Bool := p.data.isPrefixOf s.data

/-- Keys a Go map can carry in this model: integers and strings (the two
key kinds the spec's discrimination property talks about).  A real Go map
never contains the same key twice. -/
inductive GoKey : Type where
  | kInt (n : Int)
  | kStr (s : String)
deriving DecidableEq, Repr

/-- Go values the key serializer dispatches on, one constructor per
`reflect.Kind` branch of `serializeValue` in `cache/key_serializer.go`.
`vFunc`/`vChan` carry the process-local address `%p` prints.  `vPtr none`
is a nil pointer; `vSliceNil`/`vMapNil` are nil (rather than empty)
slices/maps, which the code distinguishes.  Map entries are listed in
iteration order; struct fields in declared order (exported fields only,
the unexported ones being skipped before this model applies). -/
inductive GoValue : Type where
  | vNil
  | vBool (b : Bool)
  | vInt (n : Int)
  | vStr (s : String)
  | vFunc (addr : Nat)
  | vChan (addr : Nat)
  | vPtr (p : Option GoValue)
  | vSliceNil
  | vSlice (elems : List GoValue)
  | vArray (elems : List GoValue)
  | vMapNil
  | vMap (entries : List (GoKey × GoValue))
  | vStruct (fields : List (String × GoValue))

/-- The `reflect.Type.String()` token of a map key (`PkgPath` is empty for
the built-in types modelled here). -/
def goKeyTypeToken : GoKey → String
  | .kInt _ => "int"
  | .kStr _ => "string"

/-- Embedding of `serializeMapKey`: the typed key token, `type:value`.
For the scalar key kinds modelled here the recursive `serializeValue`
call on the key reduces to its direct rendering. -/
def serializeMapKey : GoKey → String
  | .kInt n => "int:" ++ intRepr n
  | .kStr s => "string:" ++ s

/-- Lexicographic less-or-equal on character lists, comparing code
points.  On the ASCII/UTF-8 strings involved this coincides with Go's
byte-wise string comparison used by `sort.Slice`. -/
def charListLe : List Char → List Char → Bool
  | [], _ => true
  | _ :: _, [] => false
  | a :: as, b :: bs =>
      if a.toNat < b.toNat then true
      else if b.toNat < a.toNat then false
      else charListLe as bs

/-- Byte-wise string comparison, the order Go sorts map key tokens by. -/
def strLe (a b : String) : Bool := charListLe a.data b.data

/-- Insert a `(keyToken, valueToken)` pair into a list sorted by key
token. -/
def insertPair (p : String × String) : List (String × String) → List (String × String)
  | [] => [p]
  | q :: t => if strLe p.1 q.1 then p :: q :: t else q :: insertPair p t

/-- Sort `(keyToken, valueToken)` pairs by key token.  This models the
`sort.Slice` call of `serializeMap`, which orders entries by their
serialized typed key; on a real Go map with pairwise-distinct key tokens
the result is the same for any correct sort. -/
def sortPairs : List (String × String) → List (String × String)
  | [] => []
  | p :: t => insertPair p (sortPairs t)

mutual

/-- Embedding of `defaultKeySerializer.serializeValue`, one case per
branch of the Go type switch. -/
def serializeValue : GoValue → String
  | .vNil => "nil"
  | .vBool b => if b then "true" else "false"
  | .vInt n => intRepr n
  | .vStr s => s
  | .vFunc a => "func:0x" ++ hexRepr a
  | .vChan a => "chan:0x" ++ hexRepr a
  | .vPtr none => "nil"
  | .vPtr (some v) => serializeValue v
  | .vSliceNil => "slice:nil"
  | .vSlice es =>
      "slice[" ++ natRepr es.length ++ "]:\x7b" ++ joinSep "," (serializeList es) ++ "\x7d"
  | .vArray es =>
      "array[" ++ natRepr es.length ++ "]:\x7b" ++ joinSep "," (serializeList es) ++ "\x7d"
  | .vMapNil => "map:nil"
  | .vMap es =>
      "map[" ++ natRepr es.length ++ "]:\x7b" ++
        joinSep "," ((sortPairs (serializeEntries es)).map (fun p => p.1 ++ "=" ++ p.2)) ++ "\x7d"
  | .vStruct fs => "struct:\x7b" ++ joinSep "," (serializeFields fs) ++ "\x7d"
termination_by structural v => v

/-- Elementwise serialization of slice/array elements. -/
def serializeList : List GoValue → List String
  | [] => []
  | v :: t => serializeValue v :: serializeList t
termination_by structural l => l

/-- Token pairs of map entries, in iteration order. -/
def serializeEntries : List (GoKey × GoValue) → List (String × String)
  | [] => []
  | (k, v) :: t => (serializeMapKey k, serializeValue v) :: serializeEntries t
termination_by structural l => l

/-- Field tokens of a struct, `Name:value`, in declared order. -/
def serializeFields : List (String × GoValue) → List String
  | [] => []
  | (n, v) :: t => (n ++ ":" ++ serializeValue v) :: serializeFields t
termination_by structural l => l

end

/-- Embedding of `serializeMap`: serialize every entry to a
`(keyToken, valueToken)` pair, sort by key token, then emit
`map[n]:{k1=v1,...}` with `n` the entry count.  In the source this is the
helper `serializeValue` delegates to on `reflect.Map`; here the body is
inlined in the `vMap` case (see `serializeValue_vMap`) and restated as a
standalone definition. -/
def serializeMap (es : List (GoKey × GoValue)) : String :=
  "map[" ++ natRepr es.length ++ "]:\x7b" ++
    joinSep "," ((sortPairs (serializeEntries es)).map (fun p => p.1 ++ "=" ++ p.2)) ++ "\x7d"

/-- The `vMap` case of `serializeValue` is exactly `serializeMap`. -/
theorem serializeValue_vMap (es : List (GoKey × GoValue)) :
    serializeValue (.vMap es) = serializeMap es := rfl

/-- The reserved key separator, `KeySeparator` in `cache/key_serializer.go`. -/
def KeySeparator : String := "::"

/-- Embedding of `defaultKeySerializer.SerializeKey`: the method name
alone when there are no arguments, otherwise the method name followed by
every argument token, joined by the separator. -/
def SerializeKey (method : String) (args : List GoValue) : String :=
  match args with
  | [] => method
  | _ => joinSep KeySeparator (method :: serializeList args)

example : natRepr 42 = "42" := by decide
example : intRepr (-7) = "-7" := by decide
example : hexRepr 255 = "ff" := by decide
example : SerializeKey "GetByID" [.vInt 42] = "GetByID::42" := by decide
example : SerializeKey "List" [] = "List" := by decide
example : SerializeKey "Get" [.vInt 1, .vStr "hello", .vBool true] =
    "Get::1::hello::true" := by decide
example : SerializeKey "GetByPtr" [.vNil] = "GetByPtr::nil" := by decide
example : SerializeKey "GetByRef" [.vPtr none] = "GetByRef::nil" := by decide
example : SerializeKey "GetBySlice" [.vSliceNil] = "GetBySlice::slice:nil" := by decide
example : SerializeKey "GetByMap" [.vMapNil] = "GetByMap::map:nil" := by decide
example : SerializeKey "GetByIDs" [.vSlice []] = "GetByIDs::slice[0]:\x7b\x7d" := by decide
example : SerializeKey "GetByIDs" [.vSlice [.vInt 1, .vInt 2, .vInt 3]] =
    "GetByIDs::slice[3]:\x7b1,2,3\x7d" := by decide
example : SerializeKey "GetByMatrix" [.vSlice [.vSlice [.vInt 1, .vInt 2], .vSlice [.vInt 3, .vInt 4]]] =
    "GetByMatrix::slice[2]:\x7bslice[2]:\x7b1,2\x7d,slice[2]:\x7b3,4\x7d\x7d" := by decide
example : SerializeKey "GetByFilters" [.vMap []] = "GetByFilters::map[0]:\x7b\x7d" := by decide
example : SerializeKey "GetByFilters" [.vMap [(.kStr "count", .vInt 10), (.kStr "age", .vInt 25)]] =
    "GetByFilters::map[2]:\x7bstring:age=25,string:count=10\x7d" := by decide
example : SerializeKey "GetUser" [.vStruct [("ID", .vInt 1), ("Name", .vStr "alice")]] =
    "GetUser::struct:\x7bID:1,Name:alice\x7d" := by decide

/-- Drop underscores from both ends of a character list, modelling
`strings.Trim(s, "_")`. -/
def trimUnderscores (l : List Char) : List Char :=
  ((l.dropWhile (· = '_')).reverse.dropWhile (· = '_')).reverse

/-- One iteration of the `toSnake` loop (`repositorycache`'s local
snake-case converter): given the current rune, the following rune (if
any), the previous rune, whether the builder is non-empty and whether the
last written byte was an underscore, return the emitted characters and
the updated builder state. -/
def snakeStep (r : Char) (next? : Option Char) (prev : Char) (bNE lastU : Bool) :
    List Char × Bool × Bool :=
  if r.isUpper then
    let nextLower := match next? with | some c => c.isLower | none => false
    let writeU := bNE && ((prev.isLower || prev.isDigit || nextLower) && !lastU)
    ((if writeU then ['_'] else []) ++ [r.toLower], true, false)
  else if r.isLower then ([r], true, false)
  else if r.isDigit then
    let writeU := bNE && (!prev.isDigit && prev ≠ '_' && !lastU)
    ((if writeU then ['_'] else []) ++ [r], true, false)
  else
    if !lastU && bNE then (['_'], bNE, true) else ([], bNE, lastU)

/-- The `toSnake` loop over the remaining runes, carrying the previous
rune and the builder state. -/
def toSnakeAux : List Char → Char → Bool → Bool → List Char
  | [], _, _, _ => []
  | r :: rest, prev, bNE, lastU =>
      let step := snakeStep r rest.head? prev bNE lastU
      step.1 ++ toSnakeAux rest r step.2.1 step.2.2

/-- Embedding of `toSnake` (ASCII rules, as the source documents): walk
the runes emitting lower-cased characters with underscores at word
boundaries, then trim underscores from both ends.  The initial `prev`
value is immaterial: the source only reads `runes[i-1]` under
`b.Len() > 0`, which is false on the first iteration. -/
def toSnake (s : String) : String :=
  if s = "" then "" else String.mk (trimUnderscores (toSnakeAux s.data ' ' false false))

example : toSnake "Get" = "get" := by decide
example : toSnake "GetByID" = "get_by_id" := by decide
example : toSnake "GetByIdentifier" = "get_by_identifier" := by decide
example : toSnake "List" = "list" := by decide
example : toSnake "Count" = "count" := by decide
example : toSnake "TestUser" = "test_user" := by decide

/-- Embedding of `CachedRepository.methodKey`: `namespace::operation`
with the operation name converted to snake case. -/
def methodKey (ns method : String) : String := joinSep KeySeparator [ns, toSnake method]

/-- Embedding of `CachedRepository.methodPrefix`: the method key followed
by the given segments, all separator-joined (and the bare method key when
no segments are given). -/
def methodPrefix (ns method : String) (segments : List String) : String :=
  if segments.isEmpty then methodKey ns method
  else methodKey ns method ++ KeySeparator ++ joinSep KeySeparator segments

/-- Embedding of `CachedRepository.methodPrefixWithSeparator`: the method
key with a trailing separator, so that prefix deletion cannot reach into
a different operation whose snake-case name extends this one. -/
def methodPrefixWithSeparator (ns method : String) : String :=
  methodKey ns method ++ KeySeparator

/-- Embedding of `CachedRepository.key`: serialize the method key plus
the call arguments. -/
def repoKey (ns method : String) (args : List GoValue) : String :=
  SerializeKey (methodKey ns method) args

/-- Read-path key of `Get` (and, with the respective operation names,
`List`/`Count`): the resolved scope signature, when non-zero, is
prepended before the criteria.  A zero scope signature is modelled as
`none` (`repository.ScopeState.IsZero`). -/
def getReadKey (ns : String) (sig : Option GoValue) (criteria : List GoValue) : String :=
  repoKey ns "Get" (sig.toList ++ criteria)

/-- Read-path key of `List`. -/
def listReadKey (ns : String) (sig : Option GoValue) (criteria : List GoValue) : String :=
  repoKey ns "List" (sig.toList ++ criteria)

/-- Read-path key of `Count`. -/
def countReadKey (ns : String) (sig : Option GoValue) (criteria : List GoValue) : String :=
  repoKey ns "Count" (sig.toList ++ criteria)

/-- Read-path key of `GetByID`: the id argument comes first, then the
non-zero scope signature, then the criteria (the source appends the
signature after `args := []any{id}`). -/
def getByIDReadKey (ns : String) (sig : Option GoValue) (id : String)
    (criteria : List GoValue) : String :=
  repoKey ns "GetByID" ([GoValue.vStr id] ++ sig.toList ++ criteria)

/-- Read-path key of `GetByIdentifier`, built like `GetByID`'s. -/
def getByIdentifierReadKey (ns : String) (sig : Option GoValue) (ident : String)
    (criteria : List GoValue) : String :=
  repoKey ns "GetByIdentifier" ([GoValue.vStr ident] ++ sig.toList ++ criteria)

/-- The full-key construction rule as the specification words it for all
cached reads: method key first, then (only if non-zero) the scope
signature token, then all the remaining call arguments in call order. -/
def specReadKey (mkey : String) (sig : Option GoValue) (callArgs : List GoValue) : String :=
  SerializeKey mkey (sig.toList ++ callArgs)

/-- Cache mutations the decorator can issue against the `CacheService`
during invalidation: delete an exact key, or delete every key with a
given prefix. -/
inductive CacheAction : Type where
  | del (key : String)
  | delPrefix (pfx : String)
deriving DecidableEq, Repr

/-- Cache state, abstracted to which keys currently hold an entry. -/
def CacheSt : Type := String → Bool

/-- Semantics of one cache mutation: `del` removes the exact key,
`delPrefix` removes every key that starts with the prefix. -/
def applyAction (a : CacheAction) (st : CacheSt) : CacheSt :=
  match a with
  | .del k => fun x => if x = k then false else st x
  | .delPrefix p => fun x => if strHasPrefix p x then false else st x

/-- Apply a sweep of cache mutations in order. -/
def applyActions (acts : List CacheAction) (st : CacheSt) : CacheSt :=
  acts.foldl (fun s a => applyAction a s) st

/-- A domain record, for the identity-extraction helpers: its exported
fields in declared order, each with the string `fmt.Sprintf("%v", ...)`
renders for it.  (The extraction code only ever consumes that rendering.) -/
def GoRecord : Type := List (String × String)

/-- Model of `reflect.Value.FieldByName`: the field with exactly the
given name, if present. -/
def fieldByName (r : GoRecord) (name : String) : Option String :=
  (r.find? (fun f => f.1 = name)).map (fun f => f.2)

/-- Decidable equality for `Except`, so statements about extraction
results can be settled by evaluation. -/
instance {α β : Type} [DecidableEq α] [DecidableEq β] : DecidableEq (Except α β) := fun x y =>
  match x, y with
  | .ok a, .ok b =>
      if h : a = b then .isTrue (by rw [h])
      else .isFalse (by intro hh; injection hh; contradiction)
  | .error a, .error b =>
      if h : a = b then .isTrue (by rw [h])
      else .isFalse (by intro hh; injection hh; contradiction)
  | .ok _, .error _ => .isFalse (by intro hh; injection hh)
  | .error _, .ok _ => .isFalse (by intro hh; injection hh)

/-- Embedding of `CachedRepository.extractID`: try the field names `ID`,
`Id`, `id` in order and render the first hit; `error` when none exists
(the Go `(string, error)` return becomes `Except`). -/
def extractID (r : GoRecord) : Except String String :=
  match fieldByName r "ID" with
  | some v => .ok v
  | none =>
    match fieldByName r "Id" with
    | some v => .ok v
    | none =>
      match fieldByName r "id" with
      | some v => .ok v
      | none => .error "no ID field found in record"

/-- Embedding of `valueToString` on a rendered field: empty strings and
nil renderings do not count as identifier values. -/
def valueToString (v : String) : Option String :=
  if v = "" || v = "<nil>" then none else some v

/-- Embedding of `CachedRepository.extractIdentifierValues`: error when
no identifier fields are configured; otherwise collect the usable
renderings of the configured fields, erroring when none resolves. -/
def extractIdentifierValues (idCfg : List String) (r : GoRecord) :
    Except String (List String) :=
  if idCfg.isEmpty then .error "no identifier fields configured"
  else
    let values := idCfg.filterMap (fun fn => (fieldByName r fn).bind valueToString)
    if values.isEmpty then .error "no identifier values found" else .ok values

/-- Embedding of `invalidateGetCaches`: delete the exact `get` key and
the `get` prefix. -/
def invalidateGetCachesActions (ns : String) : List CacheAction :=
  [.del (repoKey ns "Get" []), .delPrefix (methodPrefixWithSeparator ns "Get")]

/-- Embedding of `invalidateRecordCaches`: delete the id-based `GetByID`
prefix when an id extracts to a non-empty rendering; delete one
`GetByIdentifier` prefix per non-empty resolved identifier value, falling
back to the whole `GetByIdentifier` prefix when extraction fails. -/
def invalidateRecordCachesActions (ns : String) (idCfg : List String) (r : GoRecord) :
    List CacheAction :=
  (match extractID r with
   | .ok id => if id ≠ "" then [.delPrefix (methodPrefix ns "GetByID" [id])] else []
   | .error _ => []) ++
  (match extractIdentifierValues idCfg r with
   | .ok ids =>
       (ids.filter (fun v => v ≠ "")).map
         (fun v => CacheAction.delPrefix (methodPrefix ns "GetByIdentifier" [v]))
   | .error _ => [.delPrefix (methodPrefixWithSeparator ns "GetByIdentifier")])

/-- Embedding of `invalidateAfterUpdate`: the record-targeted deletions,
then the `get` caches, then the exact `list`/`count` keys and their
prefixes. -/
def invalidateAfterUpdateActions (ns : String) (idCfg : List String) (r : GoRecord) :
    List CacheAction :=
  invalidateRecordCachesActions ns idCfg r ++
  invalidateGetCachesActions ns ++
  [.del (repoKey ns "List" []), .delPrefix (methodPrefixWithSeparator ns "List"),
   .del (repoKey ns "Count" []), .delPrefix (methodPrefixWithSeparator ns "Count")]

/-- Embedding of `invalidateAfterDelete`, which delegates to
`invalidateAfterUpdate`. -/
def invalidateAfterDeleteActions (ns : String) (idCfg : List String) (r : GoRecord) :
    List CacheAction :=
  invalidateAfterUpdateActions ns idCfg r

/-- Embedding of `invalidateAfterCreate` (one record per affected
result): record-targeted deletions per record, then `get`, exact
`list`/`count` keys and their prefixes. -/
def invalidateAfterCreateActions (ns : String) (idCfg : List String) (recs : List GoRecord) :
    List CacheAction :=
  (recs.map (fun r => invalidateRecordCachesActions ns idCfg r)).flatten ++
  invalidateGetCachesActions ns ++
  [.del (repoKey ns "List" []), .delPrefix (methodPrefixWithSeparator ns "List"),
   .del (repoKey ns "Count" []), .delPrefix (methodPrefixWithSeparator ns "Count")]

/-- Embedding of `invalidateAfterCriteriaOperation`: the full `get_by_id`
and `get_by_identifier` prefixes, the exact `list`/`count` keys and their
prefixes, then the `get` caches. -/
def invalidateAfterCriteriaOperationActions (ns : String) : List CacheAction :=
  [.delPrefix (methodPrefixWithSeparator ns "GetByID"),
   .delPrefix (methodPrefixWithSeparator ns "GetByIdentifier"),
   .del (repoKey ns "List" []), .delPrefix (methodPrefixWithSeparator ns "List"),
   .del (repoKey ns "Count" []), .delPrefix (methodPrefixWithSeparator ns "Count")] ++
  invalidateGetCachesActions ns

/-- Embedding of the `Update` write path: delegate to the base repository
(whose outcome is the `base` argument), and only on success run the
invalidation sweep; the produced pair is the returned result together
with the cache mutations issued. -/
def UpdateM {ε : Type} (ns : String) (idCfg : List String) (base : Except ε GoRecord) :
    Except ε GoRecord × List CacheAction :=
  match base with
  | .error e => (.error e, [])
  | .ok result => (.ok result, invalidateAfterUpdateActions ns idCfg result)

/-- Embedding of the `Create` write path. -/
def CreateM {ε : Type} (ns : String) (idCfg : List String) (base : Except ε GoRecord) :
    Except ε GoRecord × List CacheAction :=
  match base with
  | .error e => (.error e, [])
  | .ok result => (.ok result, invalidateAfterCreateActions ns idCfg [result])

/-- Embedding of the `Delete` write path: the base call returns only an
error; invalidation uses the record passed in. -/
def DeleteM {ε : Type} (ns : String) (idCfg : List String) (record : GoRecord)
    (base : Option ε) : Option ε × List CacheAction :=
  match base with
  | some e => (some e, [])
  | none => (none, invalidateAfterDeleteActions ns idCfg record)

/-- Embedding of the `DeleteMany` write path (criteria-only write, also
the shape of `DeleteManyTx`/`DeleteWhere`/`DeleteWhereTx`). -/
def DeleteManyM {ε : Type} (ns : String) (base : Option ε) :
    Option ε × List CacheAction :=
  match base with
  | some e => (some e, [])
  | none => (none, invalidateAfterCriteriaOperationActions ns)

/-- A sweep in which individual cache deletions may fail (`fail` says
which calls the backend rejects): the decorator discards each call's
error (`_ = c.cache.Delete(...)`), so every action is attempted and the
sweep always runs to the end.  Returns the attempted calls and the final
state (a failed call leaves the state unchanged). -/
def applyActionsF (fail : CacheAction → Bool) :
    List CacheAction → CacheSt → List CacheAction × CacheSt
  | [], st => ([], st)
  | a :: t, st =>
      let st' := if fail a then st else applyAction a st
      let rest := applyActionsF fail t st'
      (a :: rest.1, rest.2)

/-- The `Update` write path run against a cache whose deletions may
fail, additionally tracking the cache calls attempted and the final
cache state. -/
def UpdateMF {ε : Type} (fail : CacheAction → Bool) (ns : String) (idCfg : List String)
    (base : Except ε GoRecord) (st : CacheSt) :
    Except ε GoRecord × List CacheAction × CacheSt :=
  match base with
  | .error e => (.error e, [], st)
  | .ok result =>
      let swept := applyActionsF fail (invalidateAfterUpdateActions ns idCfg result) st
      (.ok result, swept.1, swept.2)

/-- Embedding of `GetTx`: a pure delegation to the base repository, with
no cache mutations. -/
def GetTxM {ε ρ : Type} (base : Except ε ρ) : Except ε ρ × List CacheAction := (base, [])

/-- Embedding of `GetByIDTx`. -/
def GetByIDTxM {ε ρ : Type} (base : Except ε ρ) : Except ε ρ × List CacheAction := (base, [])

/-- Embedding of `ListTx`. -/
def ListTxM {ε ρ : Type} (base : Except ε ρ) : Except ε ρ × List CacheAction := (base, [])

/-- Embedding of `CountTx`. -/
def CountTxM {ε ρ : Type} (base : Except ε ρ) : Except ε ρ × List CacheAction := (base, [])

/-- Embedding of `GetByIdentifierTx`. -/
def GetByIdentifierTxM {ε ρ : Type} (base : Except ε ρ) : Except ε ρ × List CacheAction :=
  (base, [])

/-- Embedding of `Raw`. -/
def RawM {ε ρ : Type} (base : Except ε ρ) : Except ε ρ × List CacheAction := (base, [])

/-- Embedding of `RawTx`. -/
def RawTxM {ε ρ : Type} (base : Except ε ρ) : Except ε ρ × List CacheAction := (base, [])

/-- Dynamic values a `CacheService.GetOrFetch` call can hand back as
`any` (a `nil` interface is modelled one level up, as `none`). -/
inductive Dyn : Type where
  | dInt (n : Int)
  | dStr (s : String)
  | dBool (b : Bool)
  | dRecord (r : GoRecord)
  | dListResult (records : List GoRecord) (total : Int)

/-- A Go result type `T` for the generic wrapper: its zero value and its
comma-ok type assertion on a dynamic value. -/
structure GoTypeRep (α : Type) : Type where
  zero : α
  cast : Dyn → Option α

/-- Embedding of the generic wrapper `cache.GetOrFetch[T]`: the service
outcome is the `(any, error)` pair `(svcResult, svcErr)`.  On error the
zero value and the error are returned; a `nil` result or a failed
comma-ok assertion yields the zero value with no error. -/
def GetOrFetch {ε α : Type} (tr : GoTypeRep α) (svcResult : Option Dyn)
    (svcErr : Option ε) : α × Option ε :=
  match svcErr with
  | some e => (tr.zero, some e)
  | none =>
    match svcResult with
    | none => (tr.zero, none)
    | some d =>
      match tr.cast d with
      | some v => (v, none)
      | none => (tr.zero, none)

example : methodKey "test_user" "GetByID" = "test_user::get_by_id" := by decide
example : methodPrefix "test_user" "GetByID" ["42"] = "test_user::get_by_id::42" := by decide
example : methodPrefixWithSeparator "test_user" "List" = "test_user::list::" := by decide
example : repoKey "test_user" "List" [] = "test_user::list" := by decide
example : getByIDReadKey "test_user" (some (.vStr "sig")) "42" [] =
    "test_user::get_by_id::42::sig" := by decide
example : getReadKey "test_user" (some (.vStr "sig")) [.vFunc 255] =
    "test_user::get::sig::func:0xff" := by decide
example : extractID [("ID", "u1"), ("Name", "alice")] = .ok "u1" := by decide
example : extractIdentifierValues ["Name"] [("ID", "u1"), ("Name", "alice")] =
    .ok ["alice"] := by decide
example : extractIdentifierValues ["Name"] [("ID", "u1"), ("Name", "")] =
    .error "no identifier values found" := by decide

/-- Applying an empty sweep leaves the cache state unchanged. -/
theorem applyActions_nil (st : CacheSt) : applyActions [] st = st := rfl

/-- Cache deletions never add entries: an absent key stays absent. -/
theorem applyAction_preserves_absent (a : CacheAction) (st : CacheSt) (x : String)
    (h : st x = false) : applyAction a st x = false := by
  cases a <;> simp only [applyAction] <;> split <;> simp [h]

/-- A sweep never adds entries: an absent key stays absent. -/
theorem applyActions_preserves_absent (acts : List CacheAction) (st : CacheSt) (x : String)
    (h : st x = false) : applyActions acts st x = false := by
  induction acts generalizing st with
  | nil => exact h
  | cons a t ih => exact ih _ (applyAction_preserves_absent a st x h)

/-- An exact deletion kills its key. -/
theorem applyAction_del_self (k : String) (st : CacheSt) :
    applyAction (.del k) st k = false := by
  simp [applyAction]

/-- A prefix deletion kills every key it prefixes. -/
theorem applyAction_delPrefix (p x : String) (st : CacheSt)
    (h : strHasPrefix p x = true) : applyAction (.delPrefix p) st x = false := by
  simp [applyAction, h]

/-- If some action of a sweep kills the key regardless of the state it
runs on, the whole sweep kills the key. -/
theorem applyActions_kill (acts : List CacheAction) (a : CacheAction) (x : String)
    (ha : a ∈ acts) (hkill : ∀ st : CacheSt, applyAction a st x = false) :
    ∀ st : CacheSt, applyActions acts st x = false := by
  induction acts with
  | nil => cases ha
  | cons b t ih =>
      intro st
      rcases List.mem_cons.mp ha with h | h
      · subst h
        exact applyActions_preserves_absent t _ x (hkill st)
      · exact ih h _

/-- A character-list prefix test succeeds on any extension. -/
theorem isPrefixOf_append (l t : List Char) : l.isPrefixOf (l ++ t) = true := by
  induction l with
  | nil => simp [List.isPrefixOf]
  | cons c cs ih => simp [List.isPrefixOf, ih]

/-- A string is a prefix of any extension of itself. -/
theorem strHasPrefix_append (p t : String) : strHasPrefix p (p ++ t) = true := by
  have : (p ++ t).data = p.data ++ t.data := String.data_append p t
  simp [strHasPrefix, this, isPrefixOf_append]

/-- C9: the transactional read variants and the raw-SQL methods delegate
directly to the base repository: each returns the base result unchanged,
issues no cache mutation, and hence leaves the cache state exactly as it
was. -/
theorem tx_and_raw_bypass_cache {ε ρ : Type} (base : Except ε ρ) (st : CacheSt) :
    GetTxM base = (base, []) ∧ GetByIDTxM base = (base, []) ∧
    ListTxM base = (base, []) ∧ CountTxM base = (base, []) ∧
    GetByIdentifierTxM base = (base, []) ∧ RawM base = (base, []) ∧
    RawTxM base = (base, []) ∧ applyActions (GetTxM (ε := ε) base).2 st = st :=
  ⟨rfl, rfl, rfl, rfl, rfl, rfl, rfl, rfl⟩

/-- C5: every write operation delegates to the base repository first and
invalidates only on success; a failing base call yields the base error
unchanged and an empty sweep, so the cache state is untouched. -/
theorem write_failure_no_invalidation {ε : Type} (ns : String) (idCfg : List String)
    (record r : GoRecord) (e : ε) (st : CacheSt) :
    UpdateM ns idCfg (.error e) = ((.error e : Except ε GoRecord), []) ∧
    CreateM ns idCfg (.error e) = ((.error e : Except ε GoRecord), []) ∧
    DeleteM ns idCfg record (some e) = (some e, []) ∧
    DeleteManyM ns (some e) = (some e, []) ∧
    applyActions (UpdateM ns idCfg (.error e : Except ε GoRecord)).2 st = st ∧
    (UpdateM ns idCfg (.ok r : Except ε GoRecord)).1 = .ok r ∧
    (UpdateM ns idCfg (.ok r : Except ε GoRecord)).2 =
      invalidateAfterUpdateActions ns idCfg r ∧
    (CreateM ns idCfg (.ok r : Except ε GoRecord)).2 =
      invalidateAfterCreateActions ns idCfg [r] ∧
    (DeleteM ns idCfg record (none : Option ε)).2 =
      invalidateAfterDeleteActions ns idCfg record ∧
    (DeleteManyM ns (none : Option ε)).2 = invalidateAfterCriteriaOperationActions ns :=
  ⟨rfl, rfl, rfl, rfl, rfl, rfl, rfl, rfl, rfl, rfl⟩

/-- A failing-cache sweep still attempts every target, in order. -/
theorem applyActionsF_attempts_all (fail : CacheAction → Bool) :
    ∀ (acts : List CacheAction) (st : CacheSt), (applyActionsF fail acts st).1 = acts
  | [], _ => rfl
  | _ :: t, st => by
      simp [applyActionsF, applyActionsF_attempts_all fail t]

/-- C6: individual cache-deletion errors during an invalidation sweep
neither abort the sweep nor change the write outcome: whatever the
failure pattern, every target of the sweep is attempted, and a
successful `Update` still returns the base result with no error. -/
theorem invalidation_errors_nonfatal {ε : Type} (fail fail2 : CacheAction → Bool)
    (acts : List CacheAction) (ns : String) (idCfg : List String) (r : GoRecord)
    (st st2 : CacheSt) :
    (applyActionsF fail acts st).1 = acts ∧
    (UpdateMF fail ns idCfg (.ok r : Except ε GoRecord) st).1 = .ok r ∧
    (UpdateMF fail ns idCfg (.ok r : Except ε GoRecord) st).2.1 =
      invalidateAfterUpdateActions ns idCfg r ∧
    (UpdateMF fail ns idCfg (.ok r : Except ε GoRecord) st).1 =
      (UpdateMF fail2 ns idCfg (.ok r : Except ε GoRecord) st2).1 := by
  refine ⟨applyActionsF_attempts_all fail acts st, rfl, ?_, rfl⟩
  simp [UpdateMF, applyActionsF_attempts_all]

/-- C10: the generic wrapper `cache.GetOrFetch[T]` is total on every
service outcome: a service error comes back unchanged together with the
zero value; a `nil` result, or a result whose dynamic type fails the
comma-ok assertion, yields the zero value with no error (never a panic);
a matching result is returned as-is. -/
theorem getOrFetch_total_behavior {ε α : Type} (tr : GoTypeRep α) (res : Option Dyn)
    (e : ε) (d : Dyn) :
    GetOrFetch tr res (some e) = (tr.zero, some e) ∧
    GetOrFetch tr none (none : Option ε) = (tr.zero, none) ∧
    GetOrFetch tr (some d) (none : Option ε) = ((tr.cast d).getD tr.zero, none) := by
    refine ⟨rfl, rfl, ?_⟩
    cases h : tr.cast d <;> simp [GetOrFetch, h]

/-- C2 counterexample: for `GetByID` the decorator serializes the id
argument before the non-zero scope signature, so the key differs from
the claimed shape (method key, then signature, then all call
arguments). -/
theorem scope_signature_position_counterexample :
    getByIDReadKey "user" (some (.vStr "tenant_a")) "42" [] ≠
      specReadKey (methodKey "user" "GetByID") (some (.vStr "tenant_a")) [.vStr "42"] ∧
    getByIDReadKey "user" (some (.vStr "tenant_a")) "42" [] =
      "user::get_by_id::42::tenant_a" ∧
    specReadKey (methodKey "user" "GetByID") (some (.vStr "tenant_a")) [.vStr "42"] =
      "user::get_by_id::tenant_a::42" := by
  refine ⟨by decide, by decide, by decide⟩

/-- C2 (amended): for `Get`/`List`/`Count` the non-zero scope signature
precedes the call arguments, while for `GetByID`/`GetByIdentifier` it is
inserted after the id/identifier argument and before the criteria; a zero
signature is omitted with no placeholder, so every unscoped key equals
the key built from the method key and the call arguments alone. -/
theorem read_key_construction (ns : String) (s : GoValue) (id ident : String)
    (criteria : List GoValue) :
    getReadKey ns none criteria = SerializeKey (methodKey ns "Get") criteria ∧
    getReadKey ns (some s) criteria = SerializeKey (methodKey ns "Get") (s :: criteria) ∧
    listReadKey ns none criteria = SerializeKey (methodKey ns "List") criteria ∧
    listReadKey ns (some s) criteria = SerializeKey (methodKey ns "List") (s :: criteria) ∧
    countReadKey ns none criteria = SerializeKey (methodKey ns "Count") criteria ∧
    countReadKey ns (some s) criteria = SerializeKey (methodKey ns "Count") (s :: criteria) ∧
    getByIDReadKey ns none id criteria =
      SerializeKey (methodKey ns "GetByID") (.vStr id :: criteria) ∧
    getByIDReadKey ns (some s) id criteria =
      SerializeKey (methodKey ns "GetByID") (.vStr id :: s :: criteria) ∧
    getByIdentifierReadKey ns none ident criteria =
      SerializeKey (methodKey ns "GetByIdentifier") (.vStr ident :: criteria) ∧
    getByIdentifierReadKey ns (some s) ident criteria =
      SerializeKey (methodKey ns "GetByIdentifier") (.vStr ident :: s :: criteria) ∧
    getReadKey ns none criteria = specReadKey (methodKey ns "Get") none criteria ∧
    listReadKey ns none criteria = specReadKey (methodKey ns "List") none criteria ∧
    countReadKey ns none criteria = specReadKey (methodKey ns "Count") none criteria :=
  ⟨rfl, rfl, rfl, rfl, rfl, rfl, rfl, rfl, rfl, rfl, rfl, rfl, rfl⟩

/-- The record-targeted invalidation exactly as the specification words
it: delete the id-based prefix whenever an id field is found, delete one
identifier-based prefix per resolved identifier value, and fall back to
the whole `get_by_identifier` prefix when no identifier values resolve.
Stated for comparison against `invalidateRecordCachesActions`, the
embedding of the source. -/
def specInvalidateRecordCachesActions (ns : String) (idCfg : List String) (r : GoRecord) :
    List CacheAction :=
  (match extractID r with
   | .ok id => [.delPrefix (methodPrefix ns "GetByID" [id])]
   | .error _ => []) ++
  (match extractIdentifierValues idCfg r with
   | .ok ids =>
       ids.map (fun v => CacheAction.delPrefix (methodPrefix ns "GetByIdentifier" [v]))
   | .error _ => [.delPrefix (methodPrefixWithSeparator ns "GetByIdentifier")])

/-- The full record-known write invalidation as the specification words
it: the record-targeted deletions, then unconditionally the exact `get`
key and its prefix and the exact `list`/`count` keys and their
prefixes. -/
def specInvalidateAfterUpdateActions (ns : String) (idCfg : List String) (r : GoRecord) :
    List CacheAction :=
  specInvalidateRecordCachesActions ns idCfg r ++
  invalidateGetCachesActions ns ++
  [.del (repoKey ns "List" []), .delPrefix (methodPrefixWithSeparator ns "List"),
   .del (repoKey ns "Count" []), .delPrefix (methodPrefixWithSeparator ns "Count")]

/-- C3 counterexample: a record whose `ID` field renders as the empty
string.  Its id field is found (`extractID` succeeds), so the claim
demands deleting the prefix `test_user::get_by_id::`, but the code's
`id != ""` guard skips that deletion, and the two action lists
diverge. -/
theorem record_invalidation_empty_id_counterexample :
    extractID [("ID", "")] = Except.ok "" ∧
    invalidateAfterUpdateActions "test_user" ["Name"] [("ID", "")] ≠
      specInvalidateAfterUpdateActions "test_user" ["Name"] [("ID", "")] ∧
    CacheAction.delPrefix "test_user::get_by_id::" ∈
      specInvalidateAfterUpdateActions "test_user" ["Name"] [("ID", "")] ∧
    CacheAction.delPrefix "test_user::get_by_id::" ∉
      invalidateAfterUpdateActions "test_user" ["Name"] [("ID", "")] := by
  refine ⟨by decide, by decide, by decide, by decide⟩

/-- C3 (amended): after a successful record-known write, the decorator
deletes the `get_by_id` prefix for the extracted id provided the id
renders non-empty, deletes one `get_by_identifier` prefix per non-empty
resolved identifier value, falls back to the whole `get_by_identifier`
prefix when identifier extraction fails, and then unconditionally
deletes the exact `get` key and its prefix and the exact `list`/`count`
keys and their prefixes. -/
theorem record_invalidation_targets (ns : String) (idCfg : List String) (r : GoRecord) :
    invalidateAfterUpdateActions ns idCfg r =
      (match extractID r with
       | .ok id =>
           if id = "" then []
           else [CacheAction.delPrefix (methodPrefix ns "GetByID" [id])]
       | .error _ => []) ++
      ((match extractIdentifierValues idCfg r with
       | .ok ids =>
           (ids.filter (fun v => v ≠ "")).map
             (fun v => CacheAction.delPrefix (methodPrefix ns "GetByIdentifier" [v]))
       | .error _ => [CacheAction.delPrefix (methodPrefixWithSeparator ns "GetByIdentifier")]) ++
      [CacheAction.del (repoKey ns "Get" []),
       CacheAction.delPrefix (methodPrefixWithSeparator ns "Get"),
       CacheAction.del (repoKey ns "List" []),
       CacheAction.delPrefix (methodPrefixWithSeparator ns "List"),
       CacheAction.del (repoKey ns "Count" []),
       CacheAction.delPrefix (methodPrefixWithSeparator ns "Count")]) := by
  cases hid : extractID r <;> cases hident : extractIdentifierValues idCfg r <;>
    by_cases hz : extractID r = .ok "" <;>
      simp_all [invalidateAfterUpdateActions, invalidateRecordCachesActions,
        invalidateGetCachesActions, hid, hident, List.append_assoc]

/-- Either a key of a cached read equals the bare method key (no
arguments), or it extends the method key's trailing-separator prefix. -/
theorem key_del_or_prefixed (ns method : String) (args : List GoValue) :
    repoKey ns method args = repoKey ns method [] ∨
    strHasPrefix (methodPrefixWithSeparator ns method) (repoKey ns method args) = true := by
  cases args with
  | nil => exact Or.inl rfl
  | cons a t =>
      right
      have h1 : repoKey ns method (a :: t) =
          (methodKey ns method ++ KeySeparator) ++
            joinSep KeySeparator (serializeValue a :: serializeList t) := by
        simp [repoKey, SerializeKey, serializeList, joinSep, String.append_assoc]
      rw [show methodPrefixWithSeparator ns method =
        methodKey ns method ++ KeySeparator from rfl, h1]
      exact strHasPrefix_append _ _

/-- A sweep that contains both the exact method-key deletion and the
trailing-separator prefix deletion for an operation kills every key that
operation can produce. -/
theorem applyActions_kills_repoKey (acts : List CacheAction) (ns method : String)
    (args : List GoValue) (st : CacheSt)
    (hdel : CacheAction.del (repoKey ns method []) ∈ acts)
    (hpfx : CacheAction.delPrefix (methodPrefixWithSeparator ns method) ∈ acts) :
    applyActions acts st (repoKey ns method args) = false := by
  rcases key_del_or_prefixed ns method args with h | h
  · rw [h]
    exact applyActions_kill acts _ _ hdel (fun st => applyAction_del_self _ st) st
  · exact applyActions_kill acts _ _ hpfx
      (fun st => applyAction_delPrefix _ _ st h) st

/-- C4: after a successful criteria-only write the decorator deletes the
full `get_by_id`, `get_by_identifier`, `get`, `list` and `count`
prefixes together with the exact `get`, `list` and `count` keys; in
particular every possible cached `List` or `Count` key — whatever the
scope signature and criteria — is gone afterwards, so those reads
re-fetch on next access. -/
theorem criteria_invalidation_complete (ns : String) (st : CacheSt)
    (sig : Option GoValue) (criteria : List GoValue) :
    invalidateAfterCriteriaOperationActions ns =
      [CacheAction.delPrefix (methodPrefixWithSeparator ns "GetByID"),
       CacheAction.delPrefix (methodPrefixWithSeparator ns "GetByIdentifier"),
       CacheAction.del (repoKey ns "List" []),
       CacheAction.delPrefix (methodPrefixWithSeparator ns "List"),
       CacheAction.del (repoKey ns "Count" []),
       CacheAction.delPrefix (methodPrefixWithSeparator ns "Count"),
       CacheAction.del (repoKey ns "Get" []),
       CacheAction.delPrefix (methodPrefixWithSeparator ns "Get")] ∧
    (DeleteManyM ns (none : Option Unit)).1 = none ∧
    (DeleteManyM ns (none : Option Unit)).2 = invalidateAfterCriteriaOperationActions ns ∧
    applyActions (invalidateAfterCriteriaOperationActions ns) st
      (listReadKey ns sig criteria) = false ∧
    applyActions (invalidateAfterCriteriaOperationActions ns) st
      (countReadKey ns sig criteria) = false := by
  refine ⟨rfl, rfl, rfl, ?_, ?_⟩
  · exact applyActions_kills_repoKey _ ns "List" _ st
      (by simp [invalidateAfterCriteriaOperationActions, invalidateGetCachesActions])
      (by simp [invalidateAfterCriteriaOperationActions, invalidateGetCachesActions])
  · exact applyActions_kills_repoKey _ ns "Count" _ st
      (by simp [invalidateAfterCriteriaOperationActions, invalidateGetCachesActions])
      (by simp [invalidateAfterCriteriaOperationActions, invalidateGetCachesActions])

/-- Inserting into the sorted pair list permutes consing. -/
theorem insertPair_perm (p : String × String) (l : List (String × String)) :
    List.Perm (insertPair p l) (p :: l) := by
  induction l with
  | nil => exact List.Perm.refl _
  | cons q t ih =>
      simp only [insertPair]
      split
      · exact List.Perm.refl _
      · exact (ih.cons q).trans (List.Perm.swap p q t)

/-- Sorting the serialized map entries permutes them. -/
theorem sortPairs_perm (l : List (String × String)) : List.Perm (sortPairs l) l := by
  induction l with
  | nil => exact List.Perm.refl _
  | cons p t ih => exact (insertPair_perm p (sortPairs t)).trans (ih.cons p)

/-- Length of a separator join: the summed lengths plus one separator per
gap. -/
theorem joinSep_length (sep : String) : ∀ l : List String,
    (joinSep sep l).length = (l.map String.length).sum + sep.length * (l.length - 1)
  | [] => by simp [joinSep]
  | [x] => by simp [joinSep]
  | x :: y :: t => by
      have ih := joinSep_length sep (y :: t)
      simp only [joinSep, String.length_append, List.map_cons, List.sum_cons,
        List.length_cons, Nat.add_sub_cancel, Nat.mul_succ] at ih ⊢
      omega

/-- The serialized entries are the entrywise token pairs. -/
theorem serializeEntries_eq_map (l : List (GoKey × GoValue)) :
    serializeEntries l = l.map (fun e => (serializeMapKey e.1, serializeValue e.2)) := by
  induction l with
  | nil => rfl
  | cons e t ih => cases e; simp [serializeEntries, ih]

/-- Entry serialization distributes over append. -/
theorem serializeEntries_append (a b : List (GoKey × GoValue)) :
    serializeEntries (a ++ b) = serializeEntries a ++ serializeEntries b := by
  simp [serializeEntries_eq_map]

/-- Entry serialization preserves length. -/
theorem serializeEntries_length (l : List (GoKey × GoValue)) :
    (serializeEntries l).length = l.length := by
  simp [serializeEntries_eq_map]

/-- Length contributed by one `key=value` pair of a serialized map. -/
def pairTokenLen (p : String × String) : Nat := p.1.length + 1 + p.2.length

/-- Length of a serialized map: the fixed framing (`map[`, `]:{`, `}`),
the digits of the entry count, the pair lengths, and one comma per
gap. -/
theorem serializeMap_length (es : List (GoKey × GoValue)) :
    (serializeMap es).length =
      8 + (natRepr es.length).length + ((serializeEntries es).map pairTokenLen).sum +
        (es.length - 1) := by
  have hperm : List.Perm (sortPairs (serializeEntries es)) (serializeEntries es) :=
    sortPairs_perm _
  have hmapped :
      ((sortPairs (serializeEntries es)).map (fun p => p.1 ++ "=" ++ p.2)).map String.length =
        (sortPairs (serializeEntries es)).map pairTokenLen := by
    simp only [List.map_map]
    refine List.map_congr_left ?_
    intro p _
    have he : ("=" : String).length = 1 := rfl
    simp [pairTokenLen, String.length_append, he]
  have hsum : ((sortPairs (serializeEntries es)).map pairTokenLen).sum =
      ((serializeEntries es).map pairTokenLen).sum :=
    (hperm.map pairTokenLen).sum_eq
  have hlen : (sortPairs (serializeEntries es)).length = es.length := by
    rw [hperm.length_eq, serializeEntries_length]
  have h4 : ("map[" : String).length = 4 := rfl
  have h3 : ("]:\x7b" : String).length = 3 := rfl
  have h1 : ("\x7d" : String).length = 1 := rfl
  have hc : ("," : String).length = 1 := rfl
  unfold serializeMap
  simp only [String.length_append, joinSep_length, List.length_map, hmapped, hsum, hlen,
    h4, h3, h1, hc, Nat.one_mul]
  omega

/-- Value-list serialization is the elementwise serialization. -/
theorem serializeList_eq_map (l : List GoValue) :
    serializeList l = l.map serializeValue := by
  induction l with
  | nil => rfl
  | cons v t ih => simp [serializeList, ih]

/-- C7: two maps that agree except that one holds an integer key and the
other a string key with the identical rendered form serialize to
different cache keys, in any argument position: the typed key token
(`int:`/`string:` plus the rendered key) makes the serialized maps
differ — here, by exactly three characters of length. -/
theorem map_key_type_discrimination (method : String) (pre post : List GoValue)
    (A B : List (GoKey × GoValue)) (n : Int) (s : String) (v : GoValue)
    (h : serializeValue (.vInt n) = serializeValue (.vStr s)) :
    SerializeKey method (pre ++ .vMap (A ++ (.kInt n, v) :: B) :: post) ≠
      SerializeKey method (pre ++ .vMap (A ++ (.kStr s, v) :: B) :: post) := by
  intro heq
  have hs : s.length = (intRepr n).length := by
    have hi : intRepr n = s := h
    rw [← hi]
  have hkey : (serializeMapKey (.kStr s)).length = (serializeMapKey (.kInt n)).length + 3 := by
    have h7 : ("string:" : String).length = 7 := rfl
    have h4 : ("int:" : String).length = 4 := rfl
    simp only [serializeMapKey, String.length_append, h7, h4, hs]
    omega
  have hmap : ∀ k : GoKey,
      (serializeValue (.vMap (A ++ (k, v) :: B))).length =
        8 + (natRepr (A ++ (k, v) :: B).length).length +
          (((serializeEntries A).map pairTokenLen).sum +
            ((serializeMapKey k).length + 1 + (serializeValue v).length) +
            ((serializeEntries B).map pairTokenLen).sum) +
          ((A ++ (k, v) :: B).length - 1) := by
    intro k
    rw [serializeValue_vMap, serializeMap_length, serializeEntries_append]
    simp only [List.map_append, List.sum_append, List.map_cons, List.sum_cons,
      serializeEntries, pairTokenLen]
    omega
  have hlen12 : (A ++ ((GoKey.kStr s), v) :: B).length = (A ++ ((GoKey.kInt n), v) :: B).length := by
    simp
  have hmapdiff :
      (serializeValue (.vMap (A ++ (.kStr s, v) :: B))).length =
        (serializeValue (.vMap (A ++ (.kInt n, v) :: B))).length + 3 := by
    rw [hmap, hmap, hlen12, hkey]
    omega
  have hkeylen : ∀ m : GoValue,
      (SerializeKey method (pre ++ m :: post)).length =
        ((method :: serializeList (pre ++ m :: post)).map String.length).sum +
          2 * ((serializeList (pre ++ m :: post)).length) := by
    intro m
    have hcons : ∃ x xs, pre ++ m :: post = x :: xs := by
      cases pre <;> exact ⟨_, _, rfl⟩
    obtain ⟨x, xs, hx⟩ := hcons
    rw [hx]
    show (joinSep KeySeparator (method :: serializeList (x :: xs))).length = _
    rw [joinSep_length]
    have h2 : (KeySeparator : String).length = 2 := rfl
    simp only [serializeList, List.length_cons, List.map_cons, List.sum_cons, h2]
    omega
  have hexp : ∀ m : GoValue,
      ((method :: serializeList (pre ++ m :: post)).map String.length).sum =
        method.length + ((serializeList pre).map String.length).sum +
          (serializeValue m).length + ((serializeList post).map String.length).sum := by
    intro m
    simp [serializeList_eq_map, List.map_append]
    omega
  have hcount : ∀ m : GoValue,
      (serializeList (pre ++ m :: post)).length = pre.length + 1 + post.length := by
    intro m
    simp [serializeList_eq_map]
    omega
  have hfinal := congrArg String.length heq
  rw [hkeylen, hkeylen, hexp, hexp, hcount, hcount, hmapdiff] at hfinal
  omega

/-- C7 witness: the concrete pair from the spec — a map keyed by the
integer `1` and one keyed by the string `"1"` with the same value — gets
distinct cache keys. -/
theorem map_key_type_discrimination_witness :
    serializeValue (.vInt 1) = serializeValue (.vStr "1") ∧
    SerializeKey "get_by_filters" [.vMap [(.kInt 1, .vInt 7)]] ≠
      SerializeKey "get_by_filters" [.vMap [(.kStr "1", .vInt 7)]] :=
  ⟨by decide,
    map_key_type_discrimination "get_by_filters" [] [] [] [] 1 "1" (.vInt 7) (by decide)⟩

/-- Order on map entries by serialized typed key token. -/
def entryLe (p q : GoKey × GoValue) : Bool :=
  strLe (serializeMapKey p.1) (serializeMapKey q.1)

/-- Insert a map entry into a token-sorted entry list. -/
def insertEntry (p : GoKey × GoValue) : List (GoKey × GoValue) → List (GoKey × GoValue)
  | [] => [p]
  | q :: t => if entryLe p q then p :: q :: t else q :: insertEntry p t

/-- Sort map entries by serialized typed key token. -/
def sortEntries : List (GoKey × GoValue) → List (GoKey × GoValue)
  | [] => []
  | p :: t => insertEntry p (sortEntries t)

/-- Inserting an entry permutes consing. -/
theorem insertEntry_perm (p : GoKey × GoValue) (l : List (GoKey × GoValue)) :
    List.Perm (insertEntry p l) (p :: l) := by
  induction l with
  | nil => exact List.Perm.refl _
  | cons q t ih =>
      simp only [insertEntry]
      split
      · exact List.Perm.refl _
      · exact (ih.cons q).trans (List.Perm.swap p q t)

/-- Sorting entries permutes them. -/
theorem sortEntries_perm (l : List (GoKey × GoValue)) : List.Perm (sortEntries l) l := by
  induction l with
  | nil => exact List.Perm.refl _
  | cons p t ih => exact (insertEntry_perm p (sortEntries t)).trans (ih.cons p)

mutual

/-- Canonical form of a Go value: every map's entries are brought into
the serializer's sorted order, recursively.  Two Go values are
structurally equal — same data up to map iteration order, identical
process-local identities — exactly when their canonical forms agree. -/
def canonValue : GoValue → GoValue
  | .vPtr (some v) => .vPtr (some (canonValue v))
  | .vSlice es => .vSlice (canonList es)
  | .vArray es => .vArray (canonList es)
  | .vMap es => .vMap (sortEntries (canonEntries es))
  | .vStruct fs => .vStruct (canonFields fs)
  | v => v
termination_by structural v => v

/-- Canonical forms of slice/array elements. -/
def canonList : List GoValue → List GoValue
  | [] => []
  | v :: t => canonValue v :: canonList t
termination_by structural l => l

/-- Canonical forms of map entry values (keys are scalars and left
untouched). -/
def canonEntries : List (GoKey × GoValue) → List (GoKey × GoValue)
  | [] => []
  | (k, v) :: t => (k, canonValue v) :: canonEntries t
termination_by structural l => l

/-- Canonical forms of struct field values. -/
def canonFields : List (String × GoValue) → List (String × GoValue)
  | [] => []
  | (n, v) :: t => (n, canonValue v) :: canonFields t
termination_by structural l => l

end

/-- The serialized typed key tokens of a map's entries, in iteration
order. -/
def entryKeyTokens (es : List (GoKey × GoValue)) : List String :=
  es.map (fun e => serializeMapKey e.1)

/-- Executable no-duplicates test on key tokens. -/
def noDupTokens : List String → Bool
  | [] => true
  | x :: t => (!t.contains x) && noDupTokens t

mutual

/-- Real Go maps never hold the same key twice; since the typed key
token determines the key for the kinds modelled here, a value reachable
from a Go argument has pairwise-distinct serialized key tokens in every
map it contains.  This predicate states that, recursively. -/
def keysNodupB : GoValue → Bool
  | .vPtr (some v) => keysNodupB v
  | .vSlice es => keysNodupList es
  | .vArray es => keysNodupList es
  | .vMap es => noDupTokens (entryKeyTokens es) && keysNodupEntries es
  | .vStruct fs => keysNodupFields fs
  | _ => true
termination_by structural v => v

/-- `keysNodupB` over slice/array elements. -/
def keysNodupList : List GoValue → Bool
  | [] => true
  | v :: t => keysNodupB v && keysNodupList t
termination_by structural l => l

/-- `keysNodupB` over map entry values. -/
def keysNodupEntries : List (GoKey × GoValue) → Bool
  | [] => true
  | (_, v) :: t => keysNodupB v && keysNodupEntries t
termination_by structural l => l

/-- `keysNodupB` over struct field values. -/
def keysNodupFields : List (String × GoValue) → Bool
  | [] => true
  | (_, v) :: t => keysNodupB v && keysNodupFields t
termination_by structural l => l

end

/-- Canonicalization preserves the element count. -/
theorem canonList_length (es : List GoValue) : (canonList es).length = es.length := by
  induction es with
  | nil => rfl
  | cons v t ih => simp [canonList, ih]

/-- Canonicalization preserves the entry count. -/
theorem canonEntries_length (es : List (GoKey × GoValue)) :
    (canonEntries es).length = es.length := by
  induction es with
  | nil => rfl
  | cons e t ih => cases e; simp [canonEntries, ih]

/-- Canonicalization leaves map keys (hence their tokens) unchanged. -/
theorem canonEntries_keyTokens (es : List (GoKey × GoValue)) :
    entryKeyTokens (canonEntries es) = entryKeyTokens es := by
  induction es with
  | nil => rfl
  | cons e t ih => cases e; simp [canonEntries, entryKeyTokens] at ih ⊢; exact ih

/-- The first components of the serialized entries are the key tokens. -/
theorem fst_serializeEntries (l : List (GoKey × GoValue)) :
    (serializeEntries l).map Prod.fst = entryKeyTokens l := by
  simp [serializeEntries_eq_map, entryKeyTokens, List.map_map]

/-- Totality of the byte-wise character-list order. -/
theorem charListLe_total : ∀ (a b : List Char),
    charListLe a b = true ∨ charListLe b a = true
  | [], _ => Or.inl rfl
  | _ :: _, [] => Or.inr rfl
  | a :: as, b :: bs => by
      by_cases h1 : a.toNat < b.toNat
      · left; simp [charListLe, h1]
      · by_cases h2 : b.toNat < a.toNat
        · right; simp [charListLe, h1, h2]
        · rcases charListLe_total as bs with ih | ih
          · left; simp [charListLe, h1, h2, ih]
          · right; simp [charListLe, h1, h2, ih]

/-- Transitivity of the byte-wise character-list order. -/
theorem charListLe_trans : ∀ (a b c : List Char),
    charListLe a b = true → charListLe b c = true → charListLe a c = true
  | [], _, _, _, _ => rfl
  | _ :: _, [], _, hab, _ => by simp [charListLe] at hab
  | _ :: _, _ :: _, [], _, hbc => by simp [charListLe] at hbc
  | a :: as, b :: bs, c :: cs, hab, hbc => by
      simp only [charListLe] at hab hbc ⊢
      rcases Nat.lt_trichotomy a.toNat b.toNat with h₁ | h₁ | h₁
      · rcases Nat.lt_trichotomy b.toNat c.toNat with h₂ | h₂ | h₂
        · simp [show a.toNat < c.toNat by omega]
        · simp [show a.toNat < c.toNat by omega]
        · simp [show ¬ b.toNat < c.toNat by omega, h₂] at hbc
      · rcases Nat.lt_trichotomy b.toNat c.toNat with h₂ | h₂ | h₂
        · simp [show a.toNat < c.toNat by omega]
        · have g1 : ¬ a.toNat < b.toNat := by omega
          have g2 : ¬ b.toNat < a.toNat := by omega
          have g3 : ¬ b.toNat < c.toNat := by omega
          have g4 : ¬ c.toNat < b.toNat := by omega
          have g5 : ¬ a.toNat < c.toNat := by omega
          have g6 : ¬ c.toNat < a.toNat := by omega
          simp only [if_neg g1, if_neg g2] at hab
          simp only [if_neg g3, if_neg g4] at hbc
          simp only [if_neg g5, if_neg g6]
          exact charListLe_trans as bs cs hab hbc
        · simp [show ¬ b.toNat < c.toNat by omega, h₂] at hbc
      · simp [show ¬ a.toNat < b.toNat by omega, h₁] at hab

/-- Antisymmetry of the byte-wise character-list order. -/
theorem charListLe_antisymm : ∀ (a b : List Char),
    charListLe a b = true → charListLe b a = true → a = b
  | [], [], _, _ => rfl
  | [], _ :: _, _, hba => by simp [charListLe] at hba
  | _ :: _, [], hab, _ => by simp [charListLe] at hab
  | a :: as, b :: bs, hab, hba => by
      simp only [charListLe] at hab hba
      rcases Nat.lt_trichotomy a.toNat b.toNat with h | h | h
      · simp [show ¬ b.toNat < a.toNat by omega, h] at hba
      · have g1 : ¬ a.toNat < b.toNat := by omega
        have g2 : ¬ b.toNat < a.toNat := by omega
        simp only [if_neg g1, if_neg g2] at hab hba
        have hchar : a = b := by
          have h1 : Char.ofNat a.toNat = Char.ofNat b.toNat := by rw [h]
          rwa [Char.ofNat_toNat, Char.ofNat_toNat] at h1
        rw [hchar, charListLe_antisymm as bs hab hba]
      · simp [show ¬ a.toNat < b.toNat by omega, h] at hab

/-- Totality of `strLe`. -/
theorem strLe_total (a b : String) : strLe a b = true ∨ strLe b a = true :=
  charListLe_total a.data b.data

/-- Transitivity of `strLe`. -/
theorem strLe_trans (a b c : String) (h1 : strLe a b = true) (h2 : strLe b c = true) :
    strLe a c = true :=
  charListLe_trans a.data b.data c.data h1 h2

/-- Antisymmetry of `strLe`. -/
theorem strLe_antisymm (a b : String) (h1 : strLe a b = true) (h2 : strLe b a = true) :
    a = b := by
  cases a with
  | mk da =>
      cases b with
      | mk db => exact congrArg String.mk (charListLe_antisymm da db h1 h2)

/-- Inserting into a token-sorted pair list keeps it token-sorted. -/
theorem insertPair_pairwise (p : String × String) (l : List (String × String))
    (h : l.Pairwise (fun x y => strLe x.1 y.1 = true)) :
    (insertPair p l).Pairwise (fun x y => strLe x.1 y.1 = true) := by
  induction l with
  | nil => simp [insertPair]
  | cons q t ih =>
      simp only [insertPair]
      split
      case isTrue hle =>
        refine List.Pairwise.cons ?_ h
        intro x hx
        rcases List.mem_cons.mp hx with rfl | hx
        · exact hle
        · exact strLe_trans _ _ _ hle ((List.pairwise_cons.mp h).1 x hx)
      case isFalse hgt =>
        have hq := List.pairwise_cons.mp h
        refine List.Pairwise.cons ?_ (ih hq.2)
        intro x hx
        rcases List.mem_cons.mp ((insertPair_perm p t).mem_iff.mp hx) with hxp | hx'
        · rcases strLe_total p.1 q.1 with hpq | hqp
          · exact absurd hpq hgt
          · rw [hxp]; exact hqp
        · exact hq.1 x hx'

/-- The serializer's entry sort produces a token-sorted pair list. -/
theorem sortPairs_pairwise (l : List (String × String)) :
    (sortPairs l).Pairwise (fun x y => strLe x.1 y.1 = true) := by
  induction l with
  | nil => simp [sortPairs]
  | cons p t ih => exact insertPair_pairwise p _ ih

/-- On pair lists with pairwise-distinct key tokens, sorting is
insensitive to the input order: the two sorts of any two permuted lists
agree.  This is why a real Go map (whose distinct keys have distinct
typed tokens) serializes identically whatever its iteration order. -/
theorem sortPairs_eq_of_perm (l₁ l₂ : List (String × String))
    (h : List.Perm l₁ l₂) (hnd : (l₁.map Prod.fst).Nodup) :
    sortPairs l₁ = sortPairs l₂ := by
  have hperm : List.Perm (sortPairs l₁) (sortPairs l₂) :=
    ((sortPairs_perm l₁).trans h).trans (sortPairs_perm l₂).symm
  haveI : IsAntisymm (String × String)
      (fun x y => strLe x.1 y.1 = true ∧ x.1 ≠ y.1) :=
    ⟨fun a b ha hb => absurd (strLe_antisymm _ _ ha.1 hb.1) ha.2⟩
  refine List.eq_of_perm_of_sorted (r := fun x y => strLe x.1 y.1 = true ∧ x.1 ≠ y.1)
    hperm ?_ ?_
  · have hnd1 : ((sortPairs l₁).map Prod.fst).Nodup :=
      (((sortPairs_perm l₁).map Prod.fst).nodup_iff).mpr hnd
    exact List.Pairwise.and (sortPairs_pairwise l₁) (List.pairwise_map.mp hnd1)
  · have hnd2 : ((sortPairs l₂).map Prod.fst).Nodup := by
      refine (((sortPairs_perm l₂).map Prod.fst).nodup_iff).mpr ?_
      exact ((h.map Prod.fst).nodup_iff).mp hnd
    exact List.Pairwise.and (sortPairs_pairwise l₂) (List.pairwise_map.mp hnd2)

/-- Executable no-duplicate test agrees with `List.Nodup`. -/
theorem noDupTokens_iff (l : List String) : noDupTokens l = true ↔ l.Nodup := by
  induction l with
  | nil => simp [noDupTokens]
  | cons x t ih =>
      simp [noDupTokens, List.nodup_cons, ih]

mutual

/-- Serialization is invariant under canonicalization: on a value whose
maps all have pairwise-distinct serialized key tokens (every real Go
map), reordering map entries into canonical order does not change the
serialized token, because `serializeValue` sorts them anyway. -/
theorem canon_serialize : ∀ (v : GoValue), keysNodupB v = true →
    serializeValue (canonValue v) = serializeValue v
  | .vNil, _ => rfl
  | .vBool _, _ => rfl
  | .vInt _, _ => rfl
  | .vStr _, _ => rfl
  | .vFunc _, _ => rfl
  | .vChan _, _ => rfl
  | .vPtr none, _ => rfl
  | .vPtr (some v), h => by
      have ih := canon_serialize v (by simpa [keysNodupB] using h)
      simpa [canonValue, serializeValue] using ih
  | .vSliceNil, _ => rfl
  | .vSlice es, h => by
      have ih := canon_serializeList es (by simpa [keysNodupB] using h)
      simp [canonValue, serializeValue, ih, canonList_length]
  | .vArray es, h => by
      have ih := canon_serializeList es (by simpa [keysNodupB] using h)
      simp [canonValue, serializeValue, ih, canonList_length]
  | .vMapNil, _ => rfl
  | .vMap es, h => by
      have hsplit : noDupTokens (entryKeyTokens es) = true ∧ keysNodupEntries es = true := by
        simpa [keysNodupB, Bool.and_eq_true] using h
      have hE : serializeEntries (canonEntries es) = serializeEntries es :=
        canon_serializeEntries es hsplit.2
      have hn : (sortEntries (canonEntries es)).length = es.length := by
        rw [(sortEntries_perm (canonEntries es)).length_eq, canonEntries_length]
      have hperm : List.Perm (serializeEntries (sortEntries (canonEntries es)))
          (serializeEntries es) := by
        rw [← hE, serializeEntries_eq_map, serializeEntries_eq_map]
        exact (sortEntries_perm (canonEntries es)).map _
      have hnd : ((serializeEntries (sortEntries (canonEntries es))).map Prod.fst).Nodup := by
        rw [fst_serializeEntries]
        have h0 : (entryKeyTokens es).Nodup := (noDupTokens_iff _).mp hsplit.1
        have h1 : List.Perm (entryKeyTokens (sortEntries (canonEntries es)))
            (entryKeyTokens (canonEntries es)) :=
          (sortEntries_perm (canonEntries es)).map _
        exact h1.nodup_iff.mpr (by rw [canonEntries_keyTokens]; exact h0)
      have hsp : sortPairs (serializeEntries (sortEntries (canonEntries es))) =
          sortPairs (serializeEntries es) :=
        sortPairs_eq_of_perm _ _ hperm hnd
      show serializeValue (.vMap (sortEntries (canonEntries es))) = _
      rw [serializeValue_vMap, serializeValue_vMap]
      unfold serializeMap
      rw [hn, hsp]
  | .vStruct fs, h => by
      have ih := canon_serializeFields fs (by simpa [keysNodupB] using h)
      simp [canonValue, serializeValue, ih]
termination_by structural v => v

/-- `canon_serialize` lifted to slice/array element lists. -/
theorem canon_serializeList : ∀ (es : List GoValue), keysNodupList es = true →
    serializeList (canonList es) = serializeList es
  | [], _ => rfl
  | v :: t, h => by
      have h1 : keysNodupB v = true ∧ keysNodupList t = true := by
        simpa [keysNodupList, Bool.and_eq_true] using h
      simp [canonList, serializeList, canon_serialize v h1.1, canon_serializeList t h1.2]
termination_by structural es => es

/-- `canon_serialize` lifted to map entry lists (order preserved). -/
theorem canon_serializeEntries : ∀ (es : List (GoKey × GoValue)), keysNodupEntries es = true →
    serializeEntries (canonEntries es) = serializeEntries es
  | [], _ => rfl
  | (k, v) :: t, h => by
      have h1 : keysNodupB v = true ∧ keysNodupEntries t = true := by
        simpa [keysNodupEntries, Bool.and_eq_true] using h
      simp [canonEntries, serializeEntries, canon_serialize v h1.1,
        canon_serializeEntries t h1.2]
termination_by structural es => es

/-- `canon_serialize` lifted to struct field lists. -/
theorem canon_serializeFields : ∀ (fs : List (String × GoValue)), keysNodupFields fs = true →
    serializeFields (canonFields fs) = serializeFields fs
  | [], _ => rfl
  | (n, v) :: t, h => by
      have h1 : keysNodupB v = true ∧ keysNodupFields t = true := by
        simpa [keysNodupFields, Bool.and_eq_true] using h
      simp [canonFields, serializeFields, canon_serialize v h1.1,
        canon_serializeFields t h1.2]
termination_by structural fs => fs

end

/-- C1: key serialization is deterministic.  Serializing the same
`(operation, args)` twice yields the same key (serialization is a pure
function of its input), and serializing structurally-equal but
distinctly-built argument lists — equal canonical forms, i.e. the same
data up to map iteration order, with no divergent process-local
identities — yields identical keys, for arguments whose maps carry
pairwise-distinct serialized key tokens (as every real Go map does). -/
theorem serializeKey_deterministic (method : String) (as bs : List GoValue)
    (hcanon : as.map canonValue = bs.map canonValue)
    (ha : ∀ v ∈ as, keysNodupB v = true) (hb : ∀ v ∈ bs, keysNodupB v = true) :
    SerializeKey method as = SerializeKey method as ∧
    SerializeKey method as = SerializeKey method bs := by
  refine ⟨rfl, ?_⟩
  have hmap : as.map serializeValue = bs.map serializeValue :=
    calc as.map serializeValue
        = as.map (fun v => serializeValue (canonValue v)) :=
          (List.map_congr_left fun v hv => canon_serialize v (ha v hv)).symm
      _ = (as.map canonValue).map serializeValue := by rw [List.map_map]; rfl
      _ = (bs.map canonValue).map serializeValue := by rw [hcanon]
      _ = bs.map (fun v => serializeValue (canonValue v)) := by rw [List.map_map]; rfl
      _ = bs.map serializeValue :=
          List.map_congr_left fun v hv => canon_serialize v (hb v hv)
  have hlen : as.length = bs.length := by
    have := congrArg List.length hcanon
    simpa using this
  cases as with
  | nil =>
      cases bs with
      | nil => rfl
      | cons b u => simp at hlen
  | cons a t =>
      cases bs with
      | nil => simp at hlen
      | cons b u =>
          show joinSep KeySeparator (method :: serializeList (a :: t)) =
            joinSep KeySeparator (method :: serializeList (b :: u))
          rw [serializeList_eq_map, serializeList_eq_map, hmap]

/-- C1 witness: two maps with the same entries built in opposite
iteration orders have equal canonical forms and serialize to the same
cache key. -/
theorem serializeKey_deterministic_witness :
    ([GoValue.vMap [(.kStr "b", .vInt 2), (.kStr "a", .vInt 1)]].map canonValue =
      [GoValue.vMap [(.kStr "a", .vInt 1), (.kStr "b", .vInt 2)]].map canonValue) ∧
    SerializeKey "get_by_filters" [.vMap [(.kStr "b", .vInt 2), (.kStr "a", .vInt 1)]] =
      SerializeKey "get_by_filters" [.vMap [(.kStr "a", .vInt 1), (.kStr "b", .vInt 2)]] :=
  ⟨rfl,
    (serializeKey_deterministic "get_by_filters" _ _ rfl (by decide) (by decide)).2⟩

/-- Does a character list contain two adjacent colons (the reserved
separator `::`)? -/
def hasSepChars : List Char → Bool
  | a :: b :: t => (a == ':' && b == ':') || hasSepChars (b :: t)
  | _ => false

/-- The first character, if any, is not a colon. -/
def headNotColon : List Char → Bool
  | [] => true
  | c :: _ => c != ':'

/-- The last character, if any, is not a colon. -/
def lastNotColon (l : List Char) : Bool := headNotColon l.reverse

/-- A string contains the separator exactly when its character list has
adjacent colons. -/
def hasSep (s : String) : Bool := hasSepChars s.data

/-- Appending to a nonempty right operand keeps its last character. -/
theorem lastNotColon_append (l₁ l₂ : List Char) (h : l₂ ≠ []) :
    lastNotColon (l₁ ++ l₂) = lastNotColon l₂ := by
  cases hr : l₂.reverse with
  | nil =>
      exact absurd (by simpa using congrArg List.reverse hr) h
  | cons c t =>
      simp [lastNotColon, List.reverse_append, hr, headNotColon]

/-- Separator-freeness is preserved by appends whose boundary cannot
form `::`: both sides separator-free, and the left does not end in a
colon or the right does not start with one. -/
theorem hasSepChars_append : ∀ (l₁ l₂ : List Char),
    hasSepChars l₁ = false → hasSepChars l₂ = false →
    (lastNotColon l₁ = true ∨ headNotColon l₂ = true) →
    hasSepChars (l₁ ++ l₂) = false
  | [], _, _, h₂, _ => h₂
  | [a], l₂, _, h₂, hb => by
      cases l₂ with
      | nil => simp [hasSepChars]
      | cons c t =>
          show hasSepChars (a :: c :: t) = false
          have hac : (a == ':' && c == ':') = false := by
            rcases hb with hb | hb
            · have : (a != ':') = true := by simpa [lastNotColon, headNotColon] using hb
              simp_all
            · have : (c != ':') = true := by simpa [headNotColon] using hb
              simp_all
          simp [hasSepChars, hac, h₂]
  | a :: b :: t, l₂, h₁, h₂, hb => by
      have h₁' : (a == ':' && b == ':') = false ∧ hasSepChars (b :: t) = false := by
        have h := h₁
        simp only [hasSepChars, Bool.or_eq_false_iff] at h
        exact h
      have hb' : lastNotColon (b :: t) = true ∨ headNotColon l₂ = true := by
        rcases hb with hb | hb
        · left
          have : lastNotColon ([a] ++ (b :: t)) = lastNotColon (b :: t) :=
            lastNotColon_append [a] (b :: t) (by simp)
          rw [← this]
          exact hb
        · exact Or.inr hb
      have ih := hasSepChars_append (b :: t) l₂ h₁'.2 h₂ hb'
      show hasSepChars (a :: b :: (t ++ l₂)) = false
      have hrec : hasSepChars (b :: (t ++ l₂)) = false := ih
      simp [hasSepChars, h₁'.1, hrec]

/-- A list with no colons at all is separator-free with safe ends. -/
theorem noSep_of_all_ne : ∀ (l : List Char), (∀ c ∈ l, c ≠ ':') →
    hasSepChars l = false ∧ headNotColon l = true ∧ lastNotColon l = true
  | [], _ => ⟨rfl, rfl, rfl⟩
  | [a], h => by
      have ha := h a (by simp)
      refine ⟨rfl, ?_, ?_⟩ <;> simp [headNotColon, lastNotColon, ha]
  | a :: b :: t, h => by
      have ha := h a (by simp)
      have ih := noSep_of_all_ne (b :: t) (fun c hc => h c (List.mem_cons_of_mem a hc))
      refine ⟨?_, ?_, ?_⟩
      · simp [hasSepChars, ha, ih.1]
      · simp [headNotColon, ha]
      · have h2 : lastNotColon (a :: b :: t) = lastNotColon (b :: t) :=
          lastNotColon_append [a] (b :: t) (by simp)
        rw [h2]
        exact ih.2.2

/-- A comma join of separator-free tokens is separator-free (the comma
boundary can never complete a `::`). -/
theorem joinSep_comma_noSep : ∀ (l : List String),
    (∀ x ∈ l, hasSepChars x.data = false) →
    hasSepChars (joinSep "," l).data = false
  | [], _ => rfl
  | [x], h => h x (by simp)
  | x :: y :: t, h => by
      have hx := h x (by simp)
      have hrest := joinSep_comma_noSep (y :: t) (fun z hz => h z (List.mem_cons_of_mem x hz))
      show hasSepChars ((x ++ "," ++ joinSep "," (y :: t)).data) = false
      rw [String.data_append, String.data_append]
      have h1 : hasSepChars (x.data ++ (",").data) = false :=
        hasSepChars_append _ _ hx (by decide) (Or.inr (by decide))
      refine hasSepChars_append _ _ h1 hrest (Or.inl ?_)
      rw [lastNotColon_append x.data (",").data (by decide)]
      decide

/-- Appends preserve sep-freeness at the string level. -/
theorem strAppend_noSep (a b : String)
    (ha : hasSepChars a.data = false) (hb : hasSepChars b.data = false)
    (hbd : lastNotColon a.data = true ∨ headNotColon b.data = true) :
    hasSepChars (a ++ b).data = false := by
  rw [String.data_append]
  exact hasSepChars_append _ _ ha hb hbd

/-- An append headed by a nonempty safe-headed string stays safe-headed
and nonempty. -/
theorem strAppend_head (a b : String) (h : headNotColon a.data = true)
    (hne : a.data ≠ []) :
    headNotColon (a ++ b).data = true ∧ (a ++ b).data ≠ [] := by
  rw [String.data_append]
  cases ha : a.data with
  | nil => exact absurd ha hne
  | cons c t =>
      rw [ha] at h
      exact ⟨by simpa [headNotColon] using h, by simp⟩

/-- The digits of `natDigitsCore` contain no colon. -/
theorem natDigitsCore_ne_colon : ∀ (fuel n : Nat) (acc : List Char),
    (∀ c ∈ acc, c ≠ ':') → ∀ c ∈ natDigitsCore fuel n acc, c ≠ ':'
  | 0, _, _, hacc => hacc
  | fuel + 1, n, acc, hacc => by
      have hd : Char.ofNat (48 + n % 10) ≠ ':' := by
        intro h
        have h10 : n % 10 < 10 := Nat.mod_lt _ (by decide)
        have hval : (Char.ofNat (48 + n % 10)).toNat = 48 + n % 10 := by
          have hvalid : (48 + n % 10).isValidChar := Or.inl (by omega)
          simp [Char.ofNat, hvalid, Char.toNat, Char.ofNatAux, UInt32.toNat,
            BitVec.toNat_ofNatLt]
        rw [h] at hval
        have hc : (':' : Char).toNat = 58 := by decide
        rw [hc] at hval
        omega
      simp only [natDigitsCore]
      split
      · intro c hc
        rcases List.mem_cons.mp hc with rfl | hc
        · exact hd
        · exact hacc c hc
      · exact natDigitsCore_ne_colon fuel (n / 10) _ (by
          intro c hc
          rcases List.mem_cons.mp hc with rfl | hc
          · exact hd
          · exact hacc c hc)

/-- The digits of `hexDigitsCore` contain no colon. -/
theorem hexDigitsCore_ne_colon : ∀ (fuel n : Nat) (acc : List Char),
    (∀ c ∈ acc, c ≠ ':') → ∀ c ∈ hexDigitsCore fuel n acc, c ≠ ':'
  | 0, _, _, hacc => hacc
  | fuel + 1, n, acc, hacc => by
      have h16 : n % 16 < 16 := Nat.mod_lt _ (by decide)
      have hd : (if n % 16 < 10 then Char.ofNat (48 + n % 16)
          else Char.ofNat (87 + n % 16)) ≠ ':' := by
        intro h
        split at h
        · have hvalid : (48 + n % 16).isValidChar := Or.inl (by omega)
          have hval : (Char.ofNat (48 + n % 16)).toNat = 48 + n % 16 := by
            simp [Char.ofNat, hvalid, Char.toNat, Char.ofNatAux, UInt32.toNat,
              BitVec.toNat_ofNatLt]
          rw [h] at hval
          have hc : (':' : Char).toNat = 58 := by decide
          rw [hc] at hval
          omega
        · have hvalid : (87 + n % 16).isValidChar := Or.inl (by omega)
          have hval : (Char.ofNat (87 + n % 16)).toNat = 87 + n % 16 := by
            simp [Char.ofNat, hvalid, Char.toNat, Char.ofNatAux, UInt32.toNat,
              BitVec.toNat_ofNatLt]
          rw [h] at hval
          have hc : (':' : Char).toNat = 58 := by decide
          rw [hc] at hval
          omega
      simp only [hexDigitsCore]
      split
      · intro c hc
        rcases List.mem_cons.mp hc with rfl | hc
        · exact hd
        · exact hacc c hc
      · exact hexDigitsCore_ne_colon fuel (n / 16) _ (by
          intro c hc
          rcases List.mem_cons.mp hc with rfl | hc
          · exact hd
          · exact hacc c hc)

/-- `natRepr` renders without colons. -/
theorem natRepr_ne_colon (n : Nat) : ∀ c ∈ (natRepr n).data, c ≠ ':' :=
  natDigitsCore_ne_colon (n + 1) n [] (by simp)

/-- `intRepr` renders without colons. -/
theorem intRepr_ne_colon (i : Int) : ∀ c ∈ (intRepr i).data, c ≠ ':' := by
  unfold intRepr
  split
  · rw [String.data_append]
    intro c hc
    rcases List.mem_append.mp hc with hc | hc
    · have : c = '-' := by simpa using hc
      rw [this]; decide
    · exact natRepr_ne_colon _ c hc
  · exact natRepr_ne_colon _

/-- `hexRepr` renders without colons. -/
theorem hexRepr_ne_colon (n : Nat) : ∀ c ∈ (hexRepr n).data, c ≠ ':' :=
  hexDigitsCore_ne_colon (n + 1) n [] (by simp)

/-- Colon-safety of a map key: integer keys render to digits; string
keys must be separator-free and must not begin with a colon (the typed
token puts a colon right before them). -/
def colonSafeK : GoKey → Bool
  | .kInt _ => true
  | .kStr s => !hasSepChars s.data && headNotColon s.data

mutual

/-- Colon-safety of a value: every embedded string is separator-free and
does not begin with a colon, and every struct field name is
separator-free and does not end with one (a colon follows it in the
field token).  Under this condition the serializer cannot emit `::`
inside a token. -/
def colonSafeV : GoValue → Bool
  | .vStr s => !hasSepChars s.data && headNotColon s.data
  | .vPtr (some v) => colonSafeV v
  | .vSlice es => colonSafeL es
  | .vArray es => colonSafeL es
  | .vMap es => colonSafeE es
  | .vStruct fs => colonSafeF fs
  | _ => true
termination_by structural v => v

/-- `colonSafeV` over slice/array elements. -/
def colonSafeL : List GoValue → Bool
  | [] => true
  | v :: t => colonSafeV v && colonSafeL t
termination_by structural l => l

/-- `colonSafeV` over map entries (keys and values). -/
def colonSafeE : List (GoKey × GoValue) → Bool
  | [] => true
  | (k, v) :: t => colonSafeK k && colonSafeV v && colonSafeE t
termination_by structural l => l

/-- `colonSafeV` over struct fields (names and values). -/
def colonSafeF : List (String × GoValue) → Bool
  | [] => true
  | (n, v) :: t => (!hasSepChars n.data && lastNotColon n.data) && colonSafeV v && colonSafeF t
termination_by structural l => l

end

/-- Framed collection tokens (`pre` + count + `]:{` + join + `}`) are
separator-free with a safe head whenever the joined body is
separator-free and the frame prefix is safe. -/
theorem frameToken_noSep (pre : String) (n : Nat) (J : String)
    (hpre : hasSepChars pre.data = false)
    (hpreH : headNotColon pre.data = true)
    (hpreNe : pre.data ≠ [])
    (hJ : hasSepChars J.data = false) :
    hasSepChars (pre ++ natRepr n ++ "]:\x7b" ++ J ++ "\x7d").data = false ∧
    headNotColon (pre ++ natRepr n ++ "]:\x7b" ++ J ++ "\x7d").data = true := by
  have hnat := noSep_of_all_ne _ (natRepr_ne_colon n)
  have h1 : hasSepChars (pre ++ natRepr n).data = false :=
    strAppend_noSep _ _ hpre hnat.1 (Or.inr hnat.2.1)
  have h2 : hasSepChars (pre ++ natRepr n ++ "]:\x7b").data = false :=
    strAppend_noSep _ _ h1 (by decide) (Or.inr (by decide))
  have h3 : hasSepChars (pre ++ natRepr n ++ "]:\x7b" ++ J).data = false := by
    refine strAppend_noSep _ _ h2 hJ (Or.inl ?_)
    rw [String.data_append, lastNotColon_append _ _ (by decide)]
    decide
  have h4 : hasSepChars (pre ++ natRepr n ++ "]:\x7b" ++ J ++ "\x7d").data = false :=
    strAppend_noSep _ _ h3 (by decide) (Or.inr (by decide))
  have g1 := strAppend_head pre (natRepr n) hpreH hpreNe
  have g2 := strAppend_head _ "]:\x7b" g1.1 g1.2
  have g3 := strAppend_head _ J g2.1 g2.2
  have g4 := strAppend_head _ "\x7d" g3.1 g3.2
  exact ⟨h4, g4.1⟩

/-- Typed map key tokens are separator-free with a safe head for
colon-safe keys. -/
theorem mapKeyToken_facts (k : GoKey) (hk : colonSafeK k = true) :
    hasSepChars (serializeMapKey k).data = false ∧
    headNotColon (serializeMapKey k).data = true := by
  cases k with
  | kInt n =>
      have hnat := noSep_of_all_ne _ (intRepr_ne_colon n)
      exact ⟨strAppend_noSep "int:" _ (by decide) hnat.1 (Or.inr hnat.2.1),
        (strAppend_head "int:" _ (by decide) (by decide)).1⟩
  | kStr s =>
      have h' : hasSepChars s.data = false ∧ headNotColon s.data = true := by
        simpa [colonSafeK, Bool.and_eq_true, Bool.not_eq_true'] using hk
      exact ⟨strAppend_noSep "string:" _ (by decide) h'.1 (Or.inr h'.2),
        (strAppend_head "string:" _ (by decide) (by decide)).1⟩

mutual

/-- For colon-safe values the serializer's token is separator-free and
does not begin with a colon. -/
theorem sepFreeV : ∀ (v : GoValue), colonSafeV v = true →
    hasSepChars (serializeValue v).data = false ∧
    headNotColon (serializeValue v).data = true
  | .vNil, _ => ⟨by decide, by decide⟩
  | .vBool b, _ => by cases b <;> exact ⟨by decide, by decide⟩
  | .vInt n, _ => by
      have h := noSep_of_all_ne _ (intRepr_ne_colon n)
      exact ⟨h.1, h.2.1⟩
  | .vStr s, h => by
      have h' : hasSepChars s.data = false ∧ headNotColon s.data = true := by
        simpa [colonSafeV, Bool.and_eq_true, Bool.not_eq_true'] using h
      exact h'
  | .vFunc a, _ => by
      have hx := noSep_of_all_ne _ (hexRepr_ne_colon a)
      exact ⟨strAppend_noSep "func:0x" _ (by decide) hx.1 (Or.inl (by decide)),
        (strAppend_head "func:0x" _ (by decide) (by decide)).1⟩
  | .vChan a, _ => by
      have hx := noSep_of_all_ne _ (hexRepr_ne_colon a)
      exact ⟨strAppend_noSep "chan:0x" _ (by decide) hx.1 (Or.inl (by decide)),
        (strAppend_head "chan:0x" _ (by decide) (by decide)).1⟩
  | .vPtr none, _ => ⟨by decide, by decide⟩
  | .vPtr (some v), h => sepFreeV v (by simpa [colonSafeV] using h)
  | .vSliceNil, _ => ⟨by decide, by decide⟩
  | .vSlice es, h => by
      have hL := sepFreeL es (by simpa [colonSafeV] using h)
      have hJ : hasSepChars (joinSep "," (serializeList es)).data = false :=
        joinSep_comma_noSep _ hL
      exact frameToken_noSep "slice[" es.length _ (by decide) (by decide) (by decide) hJ
  | .vArray es, h => by
      have hL := sepFreeL es (by simpa [colonSafeV] using h)
      have hJ : hasSepChars (joinSep "," (serializeList es)).data = false :=
        joinSep_comma_noSep _ hL
      exact frameToken_noSep "array[" es.length _ (by decide) (by decide) (by decide) hJ
  | .vMapNil, _ => ⟨by decide, by decide⟩
  | .vMap es, h => by
      have hE := sepFreeE es (by simpa [colonSafeV] using h)
      have hpairs : ∀ x ∈ (sortPairs (serializeEntries es)).map (fun p => p.1 ++ "=" ++ p.2),
          hasSepChars x.data = false := by
        intro x hx
        rcases List.mem_map.mp hx with ⟨p, hp, rfl⟩
        have hp' : p ∈ serializeEntries es := (sortPairs_perm _).mem_iff.mp hp
        have hfacts := hE p hp'
        have h1 : hasSepChars (p.1 ++ "=").data = false :=
          strAppend_noSep _ _ hfacts.1 (by decide) (Or.inr (by decide))
        exact strAppend_noSep _ _ h1 hfacts.2.2.1 (Or.inr hfacts.2.2.2)
      have hJ := joinSep_comma_noSep _ hpairs
      exact frameToken_noSep "map[" es.length _ (by decide) (by decide) (by decide) hJ
  | .vStruct fs, h => by
      have hF := sepFreeF fs (by simpa [colonSafeV] using h)
      have hJ := joinSep_comma_noSep _ hF
      have h1 : hasSepChars ("struct:\x7b" ++ joinSep "," (serializeFields fs)).data = false :=
        strAppend_noSep _ _ (by decide) hJ (Or.inl (by decide))
      refine ⟨strAppend_noSep _ _ h1 (by decide) (Or.inr (by decide)), ?_⟩
      have g1 := strAppend_head "struct:\x7b" (joinSep "," (serializeFields fs))
        (by decide) (by decide)
      exact (strAppend_head _ "\x7d" g1.1 g1.2).1
termination_by structural v => v

/-- `sepFreeV` over slice/array element tokens. -/
theorem sepFreeL : ∀ (es : List GoValue), colonSafeL es = true →
    ∀ x ∈ serializeList es, hasSepChars x.data = false
  | [], _ => by intro x hx; cases hx
  | v :: t, h => by
      have h' : colonSafeV v = true ∧ colonSafeL t = true := by
        simpa [colonSafeL, Bool.and_eq_true] using h
      intro x hx
      rcases List.mem_cons.mp hx with rfl | hx
      · exact (sepFreeV v h'.1).1
      · exact sepFreeL t h'.2 x hx
termination_by structural es => es

/-- `sepFreeV` over map entry token pairs. -/
theorem sepFreeE : ∀ (es : List (GoKey × GoValue)), colonSafeE es = true →
    ∀ p ∈ serializeEntries es,
      hasSepChars p.1.data = false ∧ headNotColon p.1.data = true ∧
      hasSepChars p.2.data = false ∧ headNotColon p.2.data = true
  | [], _ => by intro p hp; cases hp
  | (k, v) :: t, h => by
      have h' : colonSafeK k = true ∧ colonSafeV v = true ∧ colonSafeE t = true := by
        simpa [colonSafeE, Bool.and_eq_true, and_assoc] using h
      intro p hp
      rcases List.mem_cons.mp hp with rfl | hp
      · have hk := mapKeyToken_facts k h'.1
        have hv := sepFreeV v h'.2.1
        exact ⟨hk.1, hk.2, hv.1, hv.2⟩
      · exact sepFreeE t h'.2.2 p hp
termination_by structural es => es

/-- `sepFreeV` over struct field tokens. -/
theorem sepFreeF : ∀ (fs : List (String × GoValue)), colonSafeF fs = true →
    ∀ x ∈ serializeFields fs, hasSepChars x.data = false
  | [], _ => by intro x hx; cases hx
  | (n, v) :: t, h => by
      have h' : (hasSepChars n.data = false ∧ lastNotColon n.data = true) ∧
          colonSafeV v = true ∧ colonSafeF t = true := by
        simpa [colonSafeF, Bool.and_eq_true, Bool.not_eq_true', and_assoc] using h
      intro x hx
      rcases List.mem_cons.mp hx with rfl | hx
      · have hv := sepFreeV v h'.2.1
        have h1 : hasSepChars (n ++ ":").data = false :=
          strAppend_noSep _ _ h'.1.1 (by decide) (Or.inl h'.1.2)
        exact strAppend_noSep _ _ h1 hv.1 (Or.inr hv.2)
      · exact sepFreeF t h'.2.2 x hx
termination_by structural fs => fs

end

/-- C8 counterexample: for a raw string argument the serializer emits
the string verbatim, so the token can contain the reserved separator;
the resulting key even coincides with the key of a two-argument call,
so keys are not unambiguous token sequences. -/
theorem separator_leak_counterexample :
    hasSep (serializeValue (.vStr "a::b")) = true ∧
    SerializeKey "search" [.vStr "a::b"] = SerializeKey "search" [.vStr "a", .vStr "b"] :=
  ⟨by decide, by decide⟩

/-- C8 (amended): for every argument value in which each embedded string
is free of the separator and does not begin with a colon (and each
struct field name is free of the separator and does not end with one),
the emitted token never contains the reserved separator `::`.  A raw
string argument outside this class can inject the separator verbatim. -/
theorem token_no_separator (v : GoValue) (h : colonSafeV v = true) :
    hasSep (serializeValue v) = false :=
  (sepFreeV v h).1

/-- C8 witness: a typical record-shaped argument is colon-safe and its
token contains no separator. -/
theorem token_no_separator_witness :
    colonSafeV (.vStruct [("ID", .vInt 42), ("Name", .vStr "alice"),
      ("Tags", .vSlice [.vStr "a", .vStr "b"]),
      ("Meta", .vMap [(.kStr "k", .vStr "v")])]) = true ∧
    hasSep (serializeValue (.vStruct [("ID", .vInt 42), ("Name", .vStr "alice"),
      ("Tags", .vSlice [.vStr "a", .vStr "b"]),
      ("Meta", .vMap [(.kStr "k", .vStr "v")])])) = false :=
  ⟨by decide, token_no_separator _ (by decide)⟩
